import Mathlib

/-!
Verification of the multi-armed bandit tutorial notebook
(`Multi_Armed_Bandits_Tutorial.ipynb`).

The notebook's core is a simulation loop `run_simulation(algorithm,
true_arm_means, n)` that resets a strategy, then for each of `n` time steps
asks the strategy for an arm, samples one reward from
`norm.rvs(loc=true_arm_means[arm], scale=1.0)`, reports the reward to the
strategy via `observe_reward`, and records the reward in the trace.

Randomness in the notebook comes from NumPy's global generator, seeded once
with `np.random.seed(2077)`.  We embed that generator as an explicit `Rng`
state carrying the stream of raw draws: `np.random.randint` consumes one
natural number, `norm.rvs` consumes one standard-normal deviate (modelled as
a rational).  Every stochastic function threads this state explicitly, so a
run is a pure function of the seed state and its inputs.

NumPy integer indexing `true_arm_means[arm]` accepts negative indices in
`[-len, 0)` (Python wrap-around) and raises `IndexError` otherwise; `npGet`
embeds exactly that.

Reward values are embedded as rationals `ℚ` (the code manipulates them only
by field arithmetic and comparisons).
-/

/-- State of the process-wide pseudo-random generator: the stream of raw
natural draws consumed by `np.random.randint` and the stream of raw
standard-normal deviates consumed by `norm.rvs`. -/
structure Rng where
  ints : List ℕ
  norms : List ℚ
deriving DecidableEq, Repr

/-- Consume one raw natural draw. -/
def Rng.nextInt (r : Rng) : ℕ × Rng :=
  (r.ints.headD 0, { r with ints := r.ints.tail })

/-- Consume one raw standard-normal deviate. -/
def Rng.nextNorm (r : Rng) : ℚ × Rng :=
  (r.norms.headD 0, { r with norms := r.norms.tail })

/-- `np.random.randint(low, high)`: a uniform integer in `[low, high)`,
obtained from the next raw draw reduced modulo the range size. -/
def np_randint (low high : ℕ) (r : Rng) : ℕ × Rng :=
  let p := r.nextInt
  (low + p.1 % (high - low), p.2)

/-- `norm.rvs(loc, scale)`: one sample from Normal(loc, scale), obtained by
shifting and scaling the next raw standard-normal deviate. -/
def norm_rvs (loc scale : ℚ) (r : Rng) : ℚ × Rng :=
  let p := r.nextNorm
  (loc + scale * p.1, p.2)

/-- NumPy 1-d integer indexing `xs[i]`: indices in `[0, len)` are read
directly, indices in `[-len, 0)` wrap around to `len + i` (Python negative
indexing), anything else raises `IndexError` (modelled as `none`). -/
def npGet (xs : List ℚ) (i : ℤ) : Option ℚ :=
  if 0 ≤ i ∧ i < (xs.length : ℤ) then some (xs.getD i.toNat 0)
  else if -(xs.length : ℤ) ≤ i ∧ i < 0 then
    some (xs.getD ((xs.length : ℤ) + i).toNat 0)
  else none

/-- Observable events of one simulation run, in the order they happen:
the single `reset`, and per time step the `choose_arm` result, the reward
sampled for that arm, the `observe_reward` call, and the write of the reward
into position `t` of the trace. -/
inductive Event where
  | reset : Event
  | choose : ℤ → Event
  | sample : ℤ → ℚ → Event
  | observe : ℤ → ℚ → Event
  | record : ℕ → ℚ → Event
deriving DecidableEq, Repr

/-- The strategy interface of the notebook (`reset`, `choose_arm`,
`observe_reward`), over an explicit state type `σ`.  `choose_arm` may consume
randomness (as `RandomAlg` does), so it threads the `Rng`. -/
structure Strategy (σ : Type) where
  reset : σ → σ
  choose_arm : σ → Rng → ℤ × σ × Rng
  observe_reward : ℤ → ℚ → σ → σ

/-- The mutable state a simulation run touches: the problem instance's true
arm means (read by reward sampling), the strategy's internal state, and the
pseudo-random generator state. -/
structure SimState (σ : Type) where
  true_arm_means : List ℚ
  algState : σ
  rng : Rng
deriving DecidableEq, Repr

/-- The body of `run_simulation`'s `for t in range(n)` loop, at remaining
step budget `n` and current time step `t`.  Each iteration: ask the strategy
for an arm, index the true means (an out-of-range index raises, aborting the
run with no partial result), sample the reward, report it via
`observe_reward`, and record it in the trace.  Also returns the event log. -/
def runLoop {σ : Type} (alg : Strategy σ) :
    ℕ → ℕ → SimState σ → Except String (List ℚ × SimState σ) × List Event
  | 0, _, st => (Except.ok ([], st), [])
  | n + 1, t, st =>
    let c := alg.choose_arm st.algState st.rng
    match npGet st.true_arm_means c.1 with
    | none => (Except.error "IndexError", [Event.choose c.1])
    | some loc =>
      let sr := norm_rvs loc 1 c.2.2
      let st' : SimState σ :=
        ⟨st.true_arm_means, alg.observe_reward c.1 sr.1 c.2.1, sr.2⟩
      let rest := runLoop alg n (t + 1) st'
      (match rest.1 with
       | Except.ok pr => Except.ok (sr.1 :: pr.1, pr.2)
       | Except.error e => Except.error e,
       Event.choose c.1 :: Event.sample c.1 sr.1 :: Event.observe c.1 sr.1 ::
         Event.record t sr.1 :: rest.2)

/-- `run_simulation(algorithm, true_arm_means, n)`: reset the strategy, then
run `n` sequential time steps, returning the reward trace (or the propagated
indexing error) together with the final mutable state and the event log. -/
def run_simulation {σ : Type} (alg : Strategy σ) (true_arm_means : List ℚ)
    (n : ℕ) (s0 : σ) (rng : Rng) :
    Except String (List ℚ × SimState σ) × List Event :=
  let res := runLoop alg n 0 ⟨true_arm_means, alg.reset s0, rng⟩
  (res.1, Event.reset :: res.2)

/-- The module-level global `k = 10` (number of arms per MAB problem). -/
def k : ℕ := 10

/-- `RandomAlg`: keeps no state (`σ = Unit`), `reset` does nothing,
`choose_arm` returns `np.random.randint(low=0, high=gk)` where `gk` is the
ambient module-level global `k`, and `observe_reward` does nothing. -/
def RandomAlg (gk : ℕ) : Strategy Unit where
  reset := fun s => s
  choose_arm := fun s r =>
    let p := np_randint 0 gk r
    ((p.1 : ℤ), s, p.2)
  observe_reward := fun _ _ s => s

/-- What `ExploreThenCommit.__init__` stores: the hyperparameter `m`. -/
structure ETCCfg where
  m : ℤ
deriving DecidableEq, Repr

/-- `ExploreThenCommit.__init__(m)`: stores `self.m = m`.  The body contains
no validation and cannot raise. -/
def ExploreThenCommit.init (m : ℤ) : Except String ETCCfg :=
  Except.ok ⟨m⟩

/-- What `EpsilonGreedy.__init__` stores: the hyperparameter `epsilon`. -/
structure EpsilonGreedyCfg where
  epsilon : ℚ
deriving DecidableEq, Repr

/-- `EpsilonGreedy.__init__(epsilon)`: stores `self.epsilon = epsilon`.  The
body contains no validation and cannot raise. -/
def EpsilonGreedy.init (epsilon : ℚ) : Except String EpsilonGreedyCfg :=
  Except.ok ⟨epsilon⟩

/-- What `GradientBandit.__init__` stores: the hyperparameter `alpha`. -/
structure GradientBanditCfg where
  alpha : ℚ
deriving DecidableEq, Repr

/-- `GradientBandit.__init__(alpha)`: stores `self.alpha = alpha`.  The body
contains no validation and cannot raise. -/
def GradientBandit.init (alpha : ℚ) : Except String GradientBanditCfg :=
  Except.ok ⟨alpha⟩

/-- What `GradientBanditBaseline.__init__` stores: the hyperparameter
`alpha`. -/
structure GradientBanditBaselineCfg where
  alpha : ℚ
deriving DecidableEq, Repr

/-- `GradientBanditBaseline.__init__(alpha)`: stores `self.alpha = alpha`.
The body contains no validation and cannot raise. -/
def GradientBanditBaseline.init (alpha : ℚ) : Except String GradientBanditBaselineCfg :=
  Except.ok ⟨alpha⟩

/-- Index of the largest element of `xs`, first occurrence winning ties
(so ties break to the lowest arm index); `0` on the empty list. -/
def argmaxIdx (xs : List ℚ) : ℕ :=
  (List.range xs.length).foldl
    (fun best i => if xs.getD best 0 < xs.getD i 0 then i else best) 0

/-- Modelled from the spec: the bodies of `ExploreThenCommit.reset`,
`choose_arm` and `observe_reward` are TODO stubs in the notebook, so the
strategy's state is taken from spec sections 3 and 4.1: per-arm pull counts,
per-arm running mean rewards, the time-step counter (number of
`observe_reward` calls since reset), the hyperparameter `m`, and the arm
committed to when the exploration phase ends. -/
structure ETCState where
  m : ℕ
  t : ℕ
  counts : List ℕ
  means : List ℚ
  committed : Option ℕ
deriving DecidableEq, Repr

/-- Modelled from the spec: `ExploreThenCommit.reset` clears all learned
state to initial values — zero counts, zero mean estimates, time step 0, no
committed arm — for `gk` arms (the module-level global `k`). -/
def etcReset (gk m : ℕ) : ETCState :=
  ⟨m, 0, List.replicate gk 0, List.replicate gk 0, none⟩

/-- Modelled from the spec: `ExploreThenCommit.choose_arm` cycles through
the `gk` arms round-robin during the first `m·gk` pulls, and afterwards
always returns the arm committed to at the end of the exploration phase (the
arm with the highest running mean then, ties to the lowest index). -/
def etcChoose (gk : ℕ) (s : ETCState) : ℕ :=
  if s.t < s.m * gk then s.t % gk
  else s.committed.getD (argmaxIdx s.means)

/-- Modelled from the spec: `ExploreThenCommit.observe_reward` increments
the pulled arm's count, updates its running mean by incremental averaging
`mean += (reward - mean) / count`, advances the time step, and — when this
observation completes the exploration phase — commits to the arm with the
highest running mean (ties to the lowest index). -/
def etcObserve (gk : ℕ) (arm : ℕ) (reward : ℚ) (s : ETCState) : ETCState :=
  let newCount := s.counts.getD arm 0 + 1
  let newMean := s.means.getD arm 0 + (reward - s.means.getD arm 0) / (newCount : ℚ)
  let counts' := s.counts.set arm newCount
  let means' := s.means.set arm newMean
  let committed' := if s.t + 1 = s.m * gk then some (argmaxIdx means') else s.committed
  ⟨s.m, s.t + 1, counts', means', committed'⟩

/-- The canonical run of `ExploreThenCommit`: state after `t` time steps,
where step `t` chooses an arm with `etcChoose` and then observes the reward
`rw t` on it. `rw` is an arbitrary reward oracle, so this quantifies over
every possible reward sequence a run could produce. -/
def etcRun (gk m : ℕ) (rw : ℕ → ℚ) : ℕ → ETCState
  | 0 => etcReset gk m
  | t + 1 => etcObserve gk (etcChoose gk (etcRun gk m rw t)) (rw t) (etcRun gk m rw t)

/-- The sub-sequence of arms chosen during a run, read off the event log. -/
def chosenArms (evs : List Event) : List ℤ :=
  evs.filterMap fun e =>
    match e with
    | Event.choose a => some a
    | _ => none

/-- The four events one successful loop iteration at time `t` contributes to
the log, in order: the choice, the sample, the observation, the write into
the trace. -/
def stepEvents (t : ℕ) (a : ℤ) (w : ℚ) : List Event :=
  [Event.choose a, Event.sample a w, Event.observe a w, Event.record t w]

/-- A degenerate strategy that always chooses arm `a` and learns nothing;
used to instantiate theorems about the simulator at concrete inputs. -/
def constAlg (a : ℤ) : Strategy Unit where
  reset := fun s => s
  choose_arm := fun s r => (a, s, r)
  observe_reward := fun _ _ s => s

/-- A concrete reward oracle (reward at time `t` is `t`), used to
instantiate `etcRun` theorems at concrete inputs. -/
def rwNat : ℕ → ℚ := fun t => (t : ℚ)

/-- An index that is a valid non-negative NumPy index reads the list
directly. -/
theorem npGet_eq_some_of_nonneg (xs : List ℚ) (i : ℤ) (h0 : 0 ≤ i)
    (hl : i < (xs.length : ℤ)) : npGet xs i = some (xs.getD i.toNat 0) := by
  unfold npGet
  rw [if_pos ⟨h0, hl⟩]

/-- An index outside `[-len, len)` raises `IndexError` in NumPy. -/
theorem npGet_eq_none (xs : List ℚ) (i : ℤ)
    (h : i < -(xs.length : ℤ) ∨ (xs.length : ℤ) ≤ i) : npGet xs i = none := by
  unfold npGet
  split_ifs with h1 h2
  · exfalso; omega
  · exfalso; omega
  · rfl

/-- Claim C9: with horizon `n = 0`, `run_simulation` still calls
`strategy.reset()` exactly once (the event log is exactly `[reset]`, so
`choose_arm` and `observe_reward` are never called), does not fail, and
returns the empty reward trace. -/
theorem run_simulation_horizon_zero {σ : Type} (alg : Strategy σ)
    (means : List ℚ) (s : σ) (r : Rng) :
    run_simulation alg means 0 s r =
      (Except.ok ([], ⟨means, alg.reset s, r⟩), [Event.reset]) := rfl

/-- Claim C7: the simulation is a deterministic function of the
random-source state and its inputs — two runs from the same seeded `Rng`
state, the same strategy state and the same problem instance and horizon
produce identical results (identical reward traces in particular). -/
theorem run_simulation_deterministic {σ : Type} (alg : Strategy σ)
    (means : List ℚ) (n : ℕ) (s1 s2 : σ) (r1 r2 : Rng)
    (hs : s1 = s2) (hr : r1 = r2) :
    run_simulation alg means n s1 r1 = run_simulation alg means n s2 r2 := by
  rw [hs, hr]

/-- Witness for C7 at a concrete seeded generator, strategy and instance. -/
theorem run_simulation_deterministic_witness :
    run_simulation (RandomAlg 2) [3, 7] 2 () ⟨[0, 1], [1, 2]⟩ =
      run_simulation (RandomAlg 2) [3, 7] 2 () ⟨[0, 1], [1, 2]⟩ :=
  run_simulation_deterministic (RandomAlg 2) [3, 7] 2 () () ⟨[0, 1], [1, 2]⟩
    ⟨[0, 1], [1, 2]⟩ rfl rfl

/-- Counterexample to C3: constructing `ExploreThenCommit` with `m = 0`,
`EpsilonGreedy` with `epsilon = 2`, and the gradient bandits with
`alpha = -1` all succeed, storing the invalid value unchanged, instead of
failing at construction time. -/
theorem init_accepts_invalid_counterexample :
    ExploreThenCommit.init 0 = Except.ok ⟨0⟩ ∧
    EpsilonGreedy.init 2 = Except.ok ⟨2⟩ ∧
    GradientBandit.init (-1) = Except.ok ⟨-1⟩ ∧
    GradientBanditBaseline.init (-1) = Except.ok ⟨-1⟩ :=
  ⟨rfl, rfl, rfl, rfl⟩

/-- Claim C3 as amended: the constructors perform no validation at all —
every hyperparameter value (including `m ≤ 0`, `epsilon` outside `[0, 1]`
and negative `alpha`) is silently accepted and stored unchanged, and
construction never fails. -/
theorem init_stores_hyperparameter_unvalidated (m : ℤ) (epsilon alpha beta : ℚ) :
    ExploreThenCommit.init m = Except.ok ⟨m⟩ ∧
    EpsilonGreedy.init epsilon = Except.ok ⟨epsilon⟩ ∧
    GradientBandit.init alpha = Except.ok ⟨alpha⟩ ∧
    GradientBanditBaseline.init beta = Except.ok ⟨beta⟩ :=
  ⟨rfl, rfl, rfl, rfl⟩

/-- Counterexample to C2: a strategy returning arm `-1` (outside `[0, k)`)
on the two-arm instance `[3, 7]` is not rejected — NumPy negative indexing
silently wraps to arm `1`, a reward is sampled and recorded, and the run
succeeds with trace `[7]`. -/
theorem negative_arm_accepted_counterexample :
    (run_simulation (constAlg (-1)) [3, 7] 1 () ⟨[], [0]⟩).1 =
      Except.ok ([7], ⟨[3, 7], (), ⟨[], []⟩⟩) ∧
    (run_simulation (constAlg (-1)) [3, 7] 1 () ⟨[], [0]⟩).2 =
      [Event.reset, Event.choose (-1), Event.sample (-1) 7,
        Event.observe (-1) 7, Event.record 0 7] := by
  constructor <;>
    norm_num [run_simulation, runLoop, constAlg, npGet, norm_rvs, Rng.nextNorm]

/-- Claim C2 as amended: only an arm index outside `[-k, k)` — i.e. invalid
even as a Python negative index — makes `run_simulation` fail at that step,
before any reward is sampled (the event log stops at the `choose` event);
an index in `[-k, 0)` is silently accepted via NumPy wrap-around. -/
theorem out_of_numpy_range_fails_before_sampling {σ : Type} (alg : Strategy σ)
    (means : List ℚ) (n : ℕ) (s : σ) (r : Rng) (hn : 0 < n)
    (hout : (alg.choose_arm (alg.reset s) r).1 < -(means.length : ℤ) ∨
      (means.length : ℤ) ≤ (alg.choose_arm (alg.reset s) r).1) :
    (run_simulation alg means n s r).1 = Except.error "IndexError" ∧
    (run_simulation alg means n s r).2 =
      [Event.reset, Event.choose (alg.choose_arm (alg.reset s) r).1] := by
  obtain ⟨n', rfl⟩ := Nat.exists_eq_succ_of_ne_zero hn.ne'
  have hnone : npGet means (alg.choose_arm (alg.reset s) r).1 = none :=
    npGet_eq_none _ _ hout
  constructor <;> simp [run_simulation, runLoop, hnone]

/-- Witness for the amended C2: a strategy returning arm `5` on a two-arm
instance fails with `IndexError` before sampling. -/
theorem out_of_numpy_range_witness :
    (run_simulation (constAlg 5) [3, 7] 1 () ⟨[], [0]⟩).1 =
      Except.error "IndexError" ∧
    (run_simulation (constAlg 5) [3, 7] 1 () ⟨[], [0]⟩).2 =
      [Event.reset, Event.choose 5] := by
  have h := out_of_numpy_range_fails_before_sampling (constAlg 5) [3, 7] 1 ()
    ⟨[], [0]⟩ (by decide) (Or.inr (by decide))
  simpa using h

/-- Over any whole number of periods of raw draws, each residue `j < gk` of
the modular reduction occurs equally often: the reduction is uniform. -/
theorem length_filter_mod_range (gk j : ℕ) (hj : j < gk) :
    ∀ c : ℕ, ((List.range (c * gk)).filter (fun u => u % gk == j)).length = c := by
  intro c
  induction c with
  | zero => simp
  | succ c ih =>
    rw [Nat.succ_mul, List.range_add, List.filter_append, List.length_append, ih]
    have hcongr : ∀ u ∈ List.range gk,
        ((fun u => u % gk == j) ∘ (fun x => c * gk + x)) u = (u == j) := by
      intro u hu
      have hu' := List.mem_range.mp hu
      simp only [Function.comp]
      rw [Nat.add_comm, Nat.mul_comm, Nat.add_mul_mod_self_left,
        Nat.mod_eq_of_lt hu']
    have h1 : (List.filter (fun u => u % gk == j)
        (List.map (fun x => c * gk + x) (List.range gk))).length = 1 := by
      rw [List.filter_map, List.length_map, List.filter_congr hcongr,
        ← List.countP_eq_length_filter]
      show List.count j (List.range gk) = 1
      exact List.count_eq_one_of_mem (List.nodup_range gk) (List.mem_range.mpr hj)
    omega

/-- Claim C6: `RandomAlg.choose_arm` returns an index in `[0, gk)` drawn
uniformly (over a full period of raw draws, every arm `j < gk` is selected
equally often), `choose_arm` leaves the strategy state unchanged,
`observe_reward` is a no-op for every `(arm, reward)` input, and `reset`
has nothing to clear. -/
theorem randomAlg_uniform_stateless (gk : ℕ) (hk : 0 < gk) :
    (∀ (s : Unit) (r : Rng),
      0 ≤ ((RandomAlg gk).choose_arm s r).1 ∧
        ((RandomAlg gk).choose_arm s r).1 < (gk : ℤ)) ∧
    (∀ (s : Unit) (r : Rng), ((RandomAlg gk).choose_arm s r).2.1 = s) ∧
    (∀ (a : ℤ) (w : ℚ) (s : Unit), (RandomAlg gk).observe_reward a w s = s) ∧
    (∀ (s : Unit), (RandomAlg gk).reset s = s) ∧
    (∀ (c j : ℕ), j < gk →
      ((List.range (c * gk)).filter
        (fun u => (np_randint 0 gk ⟨[u], []⟩).1 == j)).length = c) := by
  refine ⟨?_, ?_, ?_, ?_, ?_⟩
  · intro s r
    simp only [RandomAlg, np_randint, Rng.nextInt, Nat.sub_zero, Nat.zero_add]
    have hm := Nat.mod_lt (r.ints.headD 0) hk
    omega
  · intro s r; rfl
  · intro a w s; rfl
  · intro s; rfl
  · intro c j hj
    have heq : ∀ u ∈ List.range (c * gk),
        ((np_randint 0 gk ⟨[u], []⟩).1 == j) = (u % gk == j) := by
      intro u hu
      simp [np_randint, Rng.nextInt]
    rw [List.filter_congr heq]
    exact length_filter_mod_range gk j hj c

/-- Witness for C6 at the module's global `k = 10`. -/
theorem randomAlg_uniform_stateless_witness :
    0 < k ∧
    ((∀ (s : Unit) (r : Rng),
      0 ≤ ((RandomAlg k).choose_arm s r).1 ∧
        ((RandomAlg k).choose_arm s r).1 < (k : ℤ)) ∧
    (∀ (s : Unit) (r : Rng), ((RandomAlg k).choose_arm s r).2.1 = s) ∧
    (∀ (a : ℤ) (w : ℚ) (s : Unit), (RandomAlg k).observe_reward a w s = s) ∧
    (∀ (s : Unit), (RandomAlg k).reset s = s) ∧
    (∀ (c j : ℕ), j < k →
      ((List.range (c * k)).filter
        (fun u => (np_randint 0 k ⟨[u], []⟩).1 == j)).length = c)) :=
  ⟨by decide, randomAlg_uniform_stateless k (by decide)⟩

/-- The loop body of `run_simulation` only reads the true arm means: the
means in the final state are the means it started with. -/
theorem runLoop_preserves_means {σ : Type} (alg : Strategy σ) :
    ∀ (n t : ℕ) (st : SimState σ) (tr : List ℚ) (st' : SimState σ),
      (runLoop alg n t st).1 = Except.ok (tr, st') →
      st'.true_arm_means = st.true_arm_means := by
  intro n
  induction n with
  | zero =>
    intro t st tr st' h
    simp [runLoop] at h
    rw [← h.2]
  | succ n ih =>
    intro t st tr st' h
    rw [runLoop] at h
    cases hg : npGet st.true_arm_means (alg.choose_arm st.algState st.rng).1 with
    | none => rw [hg] at h; simp at h
    | some loc =>
      rw [hg] at h
      simp only at h
      cases hr : (runLoop alg n (t + 1)
          ⟨st.true_arm_means,
            alg.observe_reward (alg.choose_arm st.algState st.rng).1
              (norm_rvs loc 1 (alg.choose_arm st.algState st.rng).2.2).1
              (alg.choose_arm st.algState st.rng).2.1,
            (norm_rvs loc 1 (alg.choose_arm st.algState st.rng).2.2).2⟩).1 with
      | ok pr =>
        rw [hr] at h
        simp at h
        have hm := ih (t + 1) _ pr.1 pr.2 hr
        rw [← h.2, hm]
      | error e => rw [hr] at h; simp at h

/-- Claim C8: `run_simulation` never modifies the problem instance: the
vector of true arm means in the final state after a completed run is the
vector that was passed in. -/
theorem run_simulation_preserves_problem_instance {σ : Type}
    (alg : Strategy σ) (means : List ℚ) (n : ℕ) (s : σ) (r : Rng)
    (tr : List ℚ) (st' : SimState σ)
    (h : (run_simulation alg means n s r).1 = Except.ok (tr, st')) :
    st'.true_arm_means = means :=
  runLoop_preserves_means alg n 0 ⟨means, alg.reset s, r⟩ tr st' h

/-- Witness for C8: a completed concrete run with `RandomAlg` leaves the
two-arm instance `[3, 7]` unchanged. -/
theorem run_simulation_preserves_problem_instance_witness :
    (⟨[3, 7], (), ⟨[], []⟩⟩ : SimState Unit).true_arm_means = [3, 7] :=
  run_simulation_preserves_problem_instance (RandomAlg 2) [3, 7] 1 () ⟨[0], [1]⟩
    [4] ⟨[3, 7], (), ⟨[], []⟩⟩
    (by norm_num [run_simulation, runLoop, RandomAlg, npGet, norm_rvs,
      np_randint, Rng.nextInt, Rng.nextNorm])

/-- Unfolding one successful iteration of the simulation loop: when the
chosen arm indexes the means successfully, the step samples, observes,
records and recurses. -/
theorem runLoop_succ_some {σ : Type} (alg : Strategy σ) (n t : ℕ)
    (st : SimState σ) (loc : ℚ)
    (hg : npGet st.true_arm_means (alg.choose_arm st.algState st.rng).1 = some loc) :
    runLoop alg (n + 1) t st =
      ((match (runLoop alg n (t + 1)
          ⟨st.true_arm_means,
            alg.observe_reward (alg.choose_arm st.algState st.rng).1
              (norm_rvs loc 1 (alg.choose_arm st.algState st.rng).2.2).1
              (alg.choose_arm st.algState st.rng).2.1,
            (norm_rvs loc 1 (alg.choose_arm st.algState st.rng).2.2).2⟩).1 with
        | Except.ok pr =>
          Except.ok ((norm_rvs loc 1 (alg.choose_arm st.algState st.rng).2.2).1 :: pr.1, pr.2)
        | Except.error e => Except.error e),
       Event.choose (alg.choose_arm st.algState st.rng).1 ::
        Event.sample (alg.choose_arm st.algState st.rng).1
          (norm_rvs loc 1 (alg.choose_arm st.algState st.rng).2.2).1 ::
        Event.observe (alg.choose_arm st.algState st.rng).1
          (norm_rvs loc 1 (alg.choose_arm st.algState st.rng).2.2).1 ::
        Event.record t (norm_rvs loc 1 (alg.choose_arm st.algState st.rng).2.2).1 ::
        (runLoop alg n (t + 1)
          ⟨st.true_arm_means,
            alg.observe_reward (alg.choose_arm st.algState st.rng).1
              (norm_rvs loc 1 (alg.choose_arm st.algState st.rng).2.2).1
              (alg.choose_arm st.algState st.rng).2.1,
            (norm_rvs loc 1 (alg.choose_arm st.algState st.rng).2.2).2⟩).2) := by
  rw [runLoop, hg]

/-- Under the strategy contract (arms in `[0, len)`), the loop from time
`t` with budget `n` produces a step list of length `n`: the trace is its
rewards in order and the log is the per-step event blocks in time order. -/
theorem runLoop_structure {σ : Type} (alg : Strategy σ) (means : List ℚ)
    (H : ∀ (s : σ) (r : Rng), 0 ≤ (alg.choose_arm s r).1 ∧
      (alg.choose_arm s r).1 < (means.length : ℤ)) :
    ∀ (n t : ℕ) (s : σ) (r : Rng),
      ∃ steps : List (ℤ × ℚ), steps.length = n ∧
        (∃ st' : SimState σ,
          (runLoop alg n t ⟨means, s, r⟩).1 =
            Except.ok (steps.map Prod.snd, st')) ∧
        (runLoop alg n t ⟨means, s, r⟩).2 =
          (List.enumFrom t steps).flatMap (fun p => stepEvents p.1 p.2.1 p.2.2) := by
  intro n
  induction n with
  | zero =>
    intro t s r
    exact ⟨[], rfl, ⟨⟨means, s, r⟩, rfl⟩, rfl⟩
  | succ n ih =>
    intro t s r
    obtain ⟨h0, h1⟩ := H s r
    have hg : npGet means (alg.choose_arm s r).1 =
        some (means.getD (alg.choose_arm s r).1.toNat 0) :=
      npGet_eq_some_of_nonneg _ _ h0 h1
    have hstep := runLoop_succ_some alg n t ⟨means, s, r⟩
      (means.getD (alg.choose_arm s r).1.toNat 0) hg
    obtain ⟨steps', hlen', ⟨st', hok'⟩, hev'⟩ :=
      ih (t + 1)
        (alg.observe_reward (alg.choose_arm s r).1
          (norm_rvs (means.getD (alg.choose_arm s r).1.toNat 0) 1
            (alg.choose_arm s r).2.2).1
          (alg.choose_arm s r).2.1)
        (norm_rvs (means.getD (alg.choose_arm s r).1.toNat 0) 1
          (alg.choose_arm s r).2.2).2
    refine ⟨((alg.choose_arm s r).1,
      (norm_rvs (means.getD (alg.choose_arm s r).1.toNat 0) 1
        (alg.choose_arm s r).2.2).1) :: steps', by simp [hlen'], ⟨st', ?_⟩, ?_⟩
    · rw [hstep]
      simp only [hok']
      rfl
    · rw [hstep]
      simp only [hev', List.enumFrom_cons, List.flatMap_cons, stepEvents]
      rfl

/-- A `reset` event contributes no chosen arm. -/
theorem chosenArms_cons_reset (l : List Event) :
    chosenArms (Event.reset :: l) = chosenArms l := by
  simp [chosenArms, List.filterMap_cons]

/-- One loop iteration contributes exactly its chosen arm. -/
theorem chosenArms_cons_choose (a : ℤ) (w : ℚ) (t : ℕ) (l : List Event) :
    chosenArms (Event.choose a :: Event.sample a w :: Event.observe a w ::
      Event.record t w :: l) = a :: chosenArms l := by
  simp [chosenArms, List.filterMap_cons]

/-- The arms `RandomAlg` chooses in the loop depend only on the global
`gk` and the generator state: two problem instances of any lengths at
least `gk` yield the same chosen arms, all in `[0, gk)`. -/
theorem runLoop_randomAlg_arms (gk : ℕ) (hk : 0 < gk) :
    ∀ (n t : ℕ) (means1 means2 : List ℚ) (r : Rng),
      gk ≤ means1.length → gk ≤ means2.length →
      (chosenArms (runLoop (RandomAlg gk) n t ⟨means1, (), r⟩).2 =
        chosenArms (runLoop (RandomAlg gk) n t ⟨means2, (), r⟩).2 ∧
       ∀ a ∈ chosenArms (runLoop (RandomAlg gk) n t ⟨means1, (), r⟩).2,
         0 ≤ a ∧ a < (gk : ℤ)) := by
  intro n
  induction n with
  | zero =>
    intro t means1 means2 r h1 h2
    exact ⟨rfl, by simp [runLoop, chosenArms]⟩
  | succ n ih =>
    intro t means1 means2 r h1 h2
    have hu : r.ints.headD 0 % gk < gk := Nat.mod_lt _ hk
    have harm : ((RandomAlg gk).choose_arm () r).1 =
        ((r.ints.headD 0 % gk : ℕ) : ℤ) := by
      simp [RandomAlg, np_randint, Rng.nextInt]
    have hg1 : npGet means1 ((RandomAlg gk).choose_arm () r).1 =
        some (means1.getD ((RandomAlg gk).choose_arm () r).1.toNat 0) := by
      apply npGet_eq_some_of_nonneg
      · rw [harm]; positivity
      · rw [harm]; exact_mod_cast lt_of_lt_of_le hu h1
    have hg2 : npGet means2 ((RandomAlg gk).choose_arm () r).1 =
        some (means2.getD ((RandomAlg gk).choose_arm () r).1.toNat 0) := by
      apply npGet_eq_some_of_nonneg
      · rw [harm]; positivity
      · rw [harm]; exact_mod_cast lt_of_lt_of_le hu h2
    have hstep1 := runLoop_succ_some (RandomAlg gk) n t ⟨means1, (), r⟩ _ hg1
    have hstep2 := runLoop_succ_some (RandomAlg gk) n t ⟨means2, (), r⟩ _ hg2
    rw [hstep1, hstep2]
    rw [chosenArms_cons_choose, chosenArms_cons_choose]
    constructor
    · rw [(ih (t + 1) means1 means2 _ h1 h2).1]
      rfl
    · intro a ha
      rcases List.mem_cons.mp ha with ha | ha
      · subst ha
        constructor
        · rw [harm]; positivity
        · rw [harm]; exact_mod_cast hu
      · exact (ih (t + 1) means1 means2 _ h1 h2).2 a ha

/-- Claim C1: for every strategy satisfying the `choose_arm` contract,
every problem instance and every horizon `n ≥ 0`, `run_simulation` calls
`reset` exactly once and then performs exactly `n` steps in strict
sequential order — each step a `choose_arm`, one reward sample for that
arm, an `observe_reward` with that pair, and the write of the reward at
position `t` — returning a reward trace of length exactly `n` with the
rewards in time order. -/
theorem run_simulation_structure {σ : Type} (alg : Strategy σ) (means : List ℚ)
    (n : ℕ) (s0 : σ) (rng : Rng)
    (H : ∀ (s : σ) (r : Rng), 0 ≤ (alg.choose_arm s r).1 ∧
      (alg.choose_arm s r).1 < (means.length : ℤ)) :
    ∃ steps : List (ℤ × ℚ), steps.length = n ∧
      (∃ st', (run_simulation alg means n s0 rng).1 =
        Except.ok (steps.map Prod.snd, st')) ∧
      (run_simulation alg means n s0 rng).2 =
        Event.reset ::
          (List.enumFrom 0 steps).flatMap (fun p => stepEvents p.1 p.2.1 p.2.2) := by
  obtain ⟨steps, hlen, ⟨st', hok⟩, hev⟩ :=
    runLoop_structure alg means H n 0 (alg.reset s0) rng
  exact ⟨steps, hlen, ⟨st', hok⟩, congrArg (List.cons Event.reset) hev⟩

/-- Witness for C1: a concrete 2-step run with a constant strategy. -/
theorem run_simulation_structure_witness :
    ∃ steps : List (ℤ × ℚ), steps.length = 2 ∧
      (∃ st', (run_simulation (constAlg 0) [5] 2 () ⟨[], [1, 2]⟩).1 =
        Except.ok (steps.map Prod.snd, st')) ∧
      (run_simulation (constAlg 0) [5] 2 () ⟨[], [1, 2]⟩).2 =
        Event.reset ::
          (List.enumFrom 0 steps).flatMap (fun p => stepEvents p.1 p.2.1 p.2.2) :=
  run_simulation_structure (constAlg 0) [5] 2 () ⟨[], [1, 2]⟩
    (fun s r => ⟨le_refl 0, by show (0 : ℤ) < (([5] : List ℚ).length : ℤ); decide⟩)

/-- Claim C10: `RandomAlg.choose_arm` draws from `[0, gk)` where `gk` is
the module-level global: for any two problem instances (any lengths), the
arms selected during a run are identical under the same generator state,
so the selectable range is determined solely by the ambient global, not by
the instance's mean-vector length. -/
theorem randomAlg_uses_global_k (gk n : ℕ) (means1 means2 : List ℚ) (r : Rng)
    (hk : 0 < gk) (h1 : gk ≤ means1.length) (h2 : gk ≤ means2.length) :
    chosenArms (run_simulation (RandomAlg gk) means1 n () r).2 =
      chosenArms (run_simulation (RandomAlg gk) means2 n () r).2 ∧
    ∀ a ∈ chosenArms (run_simulation (RandomAlg gk) means1 n () r).2,
      0 ≤ a ∧ a < (gk : ℤ) := by
  have h := runLoop_randomAlg_arms gk hk n 0 means1 means2 r h1 h2
  constructor
  · show chosenArms (Event.reset :: (runLoop (RandomAlg gk) n 0 ⟨means1, (), r⟩).2) =
      chosenArms (Event.reset :: (runLoop (RandomAlg gk) n 0 ⟨means2, (), r⟩).2)
    rw [chosenArms_cons_reset, chosenArms_cons_reset]
    exact h.1
  · intro a ha
    have ha' : a ∈ chosenArms (Event.reset ::
        (runLoop (RandomAlg gk) n 0 ⟨means1, (), r⟩).2) := ha
    rw [chosenArms_cons_reset] at ha'
    exact h.2 a ha'

/-- Witness for C10 at the global `k = 10` and instances of lengths 11
and 10. -/
theorem randomAlg_uses_global_k_witness :
    (0 < k ∧ k ≤ (List.replicate 10 (0 : ℚ) ++ [5]).length ∧
      k ≤ (List.replicate 10 (0 : ℚ)).length) ∧
    (chosenArms (run_simulation (RandomAlg k) (List.replicate 10 (0 : ℚ) ++ [5]) 1 () ⟨[7], [0]⟩).2 =
      chosenArms (run_simulation (RandomAlg k) (List.replicate 10 (0 : ℚ)) 1 () ⟨[7], [0]⟩).2 ∧
    ∀ a ∈ chosenArms (run_simulation (RandomAlg k) (List.replicate 10 (0 : ℚ) ++ [5]) 1 () ⟨[7], [0]⟩).2,
      0 ≤ a ∧ a < (k : ℤ)) :=
  ⟨⟨by decide, by decide, by decide⟩,
    randomAlg_uses_global_k k 1 (List.replicate 10 (0 : ℚ) ++ [5])
      (List.replicate 10 (0 : ℚ)) ⟨[7], [0]⟩ (by decide) (by decide) (by decide)⟩

/-- `etcRun` never changes the hyperparameter `m`. -/
theorem etcRun_m (gk m : ℕ) (f : ℕ → ℚ) (t : ℕ) : (etcRun gk m f t).m = m := by
  induction t with
  | zero => rfl
  | succ t ih => simp only [etcRun, etcObserve]; exact ih

/-- The time-step counter equals the number of `observe_reward` calls
made since the reset. -/
theorem etcRun_t (gk m : ℕ) (f : ℕ → ℚ) (t : ℕ) : (etcRun gk m f t).t = t := by
  induction t with
  | zero => rfl
  | succ t ih => simp only [etcRun, etcObserve]; omega

/-- The pull-count vector always has one entry per arm. -/
theorem etcRun_counts_length (gk m : ℕ) (f : ℕ → ℚ) (t : ℕ) :
    (etcRun gk m f t).counts.length = gk := by
  induction t with
  | zero => simp [etcRun, etcReset]
  | succ t ih => simp only [etcRun, etcObserve, List.length_set]; exact ih

/-- The running-mean vector always has one entry per arm. -/
theorem etcRun_means_length (gk m : ℕ) (f : ℕ → ℚ) (t : ℕ) :
    (etcRun gk m f t).means.length = gk := by
  induction t with
  | zero => simp [etcRun, etcReset]
  | succ t ih => simp only [etcRun, etcObserve, List.length_set]; exact ih

/-- The running best index of the argmax fold stays within bounds. -/
theorem foldl_best_lt (xs : List ℚ) :
    ∀ (l : List ℕ) (b : ℕ), b < xs.length → (∀ i ∈ l, i < xs.length) →
      (l.foldl (fun best i => if xs.getD best 0 < xs.getD i 0 then i else best) b)
        < xs.length := by
  intro l
  induction l with
  | nil => intro b hb _; exact hb
  | cons x tl ih =>
    intro b hb hl
    simp only [List.foldl_cons]
    apply ih
    · by_cases h : xs.getD b 0 < xs.getD x 0
      · rw [if_pos h]; exact hl x (List.mem_cons_self x tl)
      · rw [if_neg h]; exact hb
    · intro i hi; exact hl i (List.mem_cons_of_mem x hi)

/-- On a nonempty list, `argmaxIdx` is a valid index. -/
theorem argmaxIdx_lt_length (xs : List ℚ) (h : 0 < xs.length) :
    argmaxIdx xs < xs.length := by
  unfold argmaxIdx
  exact foldl_best_lt xs (List.range xs.length) 0 h (fun i hi => List.mem_range.mp hi)

/-- Incrementing one in-bounds entry increments the total count sum. -/
theorem sum_set_succ (l : List ℕ) : ∀ i : ℕ, i < l.length →
    (l.set i (l.getD i 0 + 1)).sum = l.sum + 1 := by
  induction l with
  | nil => intro i hi; simp at hi
  | cons x tl ih =>
    intro i hi
    cases i with
    | zero => simp [List.set, List.getD_cons_zero, List.sum_cons]; omega
    | succ i =>
      simp only [List.set, List.getD_cons_succ, List.sum_cons]
      rw [ih i (by simpa using hi)]
      omega

/-- Any committed arm stored in the state is a valid arm index. -/
theorem etcRun_committed_lt (gk m : ℕ) (f : ℕ → ℚ) (hk : 0 < gk) :
    ∀ t c, (etcRun gk m f t).committed = some c → c < gk := by
  intro t
  induction t with
  | zero => intro c h; simp [etcRun, etcReset] at h
  | succ t ih =>
    intro c h
    simp only [etcRun, etcObserve] at h
    by_cases hc : (etcRun gk m f t).t + 1 = (etcRun gk m f t).m * gk
    · rw [if_pos hc, Option.some_inj] at h
      subst h
      refine lt_of_lt_of_eq (argmaxIdx_lt_length _ ?_) ?_
      · rw [List.length_set, etcRun_means_length]; exact hk
      · rw [List.length_set, etcRun_means_length]
    · rw [if_neg hc] at h
      exact ih c h

/-- From the end of the exploration phase onwards, the committed arm is
frozen: it is the argmax of the running means as they stood when the phase
ended, regardless of later updates. -/
theorem etcRun_committed_eq (gk m : ℕ) (f : ℕ → ℚ) (hpos : 0 < m * gk) :
    ∀ t, m * gk ≤ t →
      (etcRun gk m f t).committed =
        some (argmaxIdx (etcRun gk m f (m * gk)).means) := by
  intro t
  induction t with
  | zero => intro h; omega
  | succ t ih =>
    intro h
    by_cases hlt : m * gk ≤ t
    · show (etcObserve gk (etcChoose gk (etcRun gk m f t)) (f t)
        (etcRun gk m f t)).committed = _
      simp only [etcObserve]
      rw [etcRun_t, etcRun_m, if_neg (by omega)]
      exact ih hlt
    · have heq : t + 1 = m * gk := by omega
      rw [← heq]
      show (etcObserve gk (etcChoose gk (etcRun gk m f t)) (f t)
          (etcRun gk m f t)).committed =
        some (argmaxIdx (etcObserve gk (etcChoose gk (etcRun gk m f t)) (f t)
          (etcRun gk m f t)).means)
      simp only [etcObserve]
      rw [etcRun_t, etcRun_m, if_pos heq]

/-- During the exploration phase, `choose_arm` cycles round-robin. -/
theorem etcChoose_exploration (gk m : ℕ) (f : ℕ → ℚ) (t : ℕ) (ht : t < m * gk) :
    etcChoose gk (etcRun gk m f t) = t % gk := by
  unfold etcChoose
  rw [etcRun_t, etcRun_m, if_pos ht]

/-- After the exploration phase, `choose_arm` always returns the arm with
the highest running mean at the end of exploration (ties to lowest
index). -/
theorem etcChoose_commit (gk m : ℕ) (f : ℕ → ℚ) (hpos : 0 < m * gk)
    (t : ℕ) (ht : m * gk ≤ t) :
    etcChoose gk (etcRun gk m f t) = argmaxIdx (etcRun gk m f (m * gk)).means := by
  unfold etcChoose
  rw [etcRun_t, etcRun_m, if_neg (by omega), etcRun_committed_eq gk m f hpos t ht]
  rfl

/-- `choose_arm` always returns a valid arm index. -/
theorem etcChoose_lt (gk m : ℕ) (f : ℕ → ℚ) (hk : 0 < gk) (t : ℕ) :
    etcChoose gk (etcRun gk m f t) < gk := by
  unfold etcChoose
  rw [etcRun_t, etcRun_m]
  split_ifs with h
  · exact Nat.mod_lt _ hk
  · cases hc : (etcRun gk m f t).committed with
    | none =>
      rw [Option.getD_none]
      have hlen : 0 < (etcRun gk m f t).means.length := by
        rw [etcRun_means_length]; exact hk
      have := argmaxIdx_lt_length _ hlen
      rwa [etcRun_means_length] at this
    | some c =>
      rw [Option.getD_some]
      exact etcRun_committed_lt gk m f hk t c hc

/-- The pull counts always sum to the number of observations so far. -/
theorem etcRun_sum_counts (gk m : ℕ) (f : ℕ → ℚ) (hk : 0 < gk) (t : ℕ) :
    (etcRun gk m f t).counts.sum = t := by
  induction t with
  | zero => simp [etcRun, etcReset]
  | succ t ih =>
    show (etcObserve gk (etcChoose gk (etcRun gk m f t)) (f t)
      (etcRun gk m f t)).counts.sum = t + 1
    simp only [etcObserve]
    rw [sum_set_succ ((etcRun gk m f t).counts) (etcChoose gk (etcRun gk m f t))
      (by rw [etcRun_counts_length]; exact etcChoose_lt gk m f hk t), ih]

/-- Claim C4: for `ExploreThenCommit(m)` with `m ≥ 1` (modelled from the
spec — its bodies are TODO stubs in the notebook), in every run the first
`m·k` `choose_arm` calls cycle through the `k` arms round-robin (so each
arm is chosen exactly `m` times during the first `m·k` steps), and from
step `m·k` onward every `choose_arm` call returns the same arm: the one
with the highest running mean reward at the end of the exploration phase,
ties broken by lowest arm index. -/
theorem etc_round_robin_then_commit (gk m : ℕ) (f : ℕ → ℚ)
    (hm : 1 ≤ m) (hk : 1 ≤ gk) :
    (∀ t, t < m * gk → etcChoose gk (etcRun gk m f t) = t % gk) ∧
    (∀ a, a < gk → ((List.range (m * gk)).filter
      (fun t => etcChoose gk (etcRun gk m f t) == a)).length = m) ∧
    (∀ t, m * gk ≤ t →
      etcChoose gk (etcRun gk m f t) =
        argmaxIdx (etcRun gk m f (m * gk)).means) := by
  have hpos : 0 < m * gk := Nat.mul_pos hm hk
  refine ⟨fun t ht => etcChoose_exploration gk m f t ht, ?_,
    fun t ht => etcChoose_commit gk m f hpos t ht⟩
  intro a ha
  have hcongr : ∀ u ∈ List.range (m * gk),
      (etcChoose gk (etcRun gk m f u) == a) = (u % gk == a) := by
    intro u hu
    rw [etcChoose_exploration gk m f u (List.mem_range.mp hu)]
  rw [List.filter_congr hcongr]
  exact length_filter_mod_range gk a ha m

/-- Witness for C4 with two arms, `m = 1` and a concrete reward oracle. -/
theorem etc_round_robin_then_commit_witness :
    (1 ≤ 1 ∧ 1 ≤ 2) ∧
    ((∀ t, t < 1 * 2 → etcChoose 2 (etcRun 2 1 rwNat t) = t % 2) ∧
    (∀ a, a < 2 → ((List.range (1 * 2)).filter
      (fun t => etcChoose 2 (etcRun 2 1 rwNat t) == a)).length = 1) ∧
    (∀ t, 1 * 2 ≤ t →
      etcChoose 2 (etcRun 2 1 rwNat t) =
        argmaxIdx (etcRun 2 1 rwNat (1 * 2)).means)) :=
  ⟨⟨by decide, by decide⟩,
    etc_round_robin_then_commit 2 1 rwNat (by decide) (by decide)⟩

/-- Claim C5: at every point during a run, the per-arm pull counts sum to
the number of `observe_reward` calls since the last reset (which equals
the time-step counter), and every arm index held in or produced from the
state is in `[0, k)` — proved for the spec-modelled `ExploreThenCommit`
(the notebook's other learning strategies are TODO stubs); `RandomAlg`
keeps no counts at all, its `observe_reward` leaving the state unchanged. -/
theorem etc_state_invariants (gk m : ℕ) (f : ℕ → ℚ) (t : ℕ) (hk : 0 < gk) :
    (etcRun gk m f t).t = t ∧
    (etcRun gk m f t).counts.sum = t ∧
    (etcRun gk m f t).counts.length = gk ∧
    etcChoose gk (etcRun gk m f t) < gk ∧
    (∀ c, (etcRun gk m f t).committed = some c → c < gk) ∧
    (∀ (a : ℤ) (w : ℚ) (s : Unit), (RandomAlg gk).observe_reward a w s = s) :=
  ⟨etcRun_t gk m f t, etcRun_sum_counts gk m f hk t, etcRun_counts_length gk m f t,
    etcChoose_lt gk m f hk t,
    fun c hc => etcRun_committed_lt gk m f hk t c hc,
    fun _ _ _ => rfl⟩

/-- Witness for C5 with two arms after three observations. -/
theorem etc_state_invariants_witness :
    0 < 2 ∧
    ((etcRun 2 1 rwNat 3).t = 3 ∧
    (etcRun 2 1 rwNat 3).counts.sum = 3 ∧
    (etcRun 2 1 rwNat 3).counts.length = 2 ∧
    etcChoose 2 (etcRun 2 1 rwNat 3) < 2 ∧
    (∀ c, (etcRun 2 1 rwNat 3).committed = some c → c < 2) ∧
    (∀ (a : ℤ) (w : ℚ) (s : Unit), (RandomAlg 2).observe_reward a w s = s)) :=
  ⟨by decide, etc_state_invariants 2 1 rwNat 3 (by decide)⟩
